import Mathlib

set_option maxRecDepth 10000

/-!
Verification of the incremental-merge / deduplication core of `monizze_csv.py`.

The Python source is shallowly embedded: the file on disk is modelled at row
granularity (a row is a `List String` of fields, CSV quoting is not modelled
since every claim is stated at field granularity), Python exceptions become an
explicit error type, Python `float` values are modelled as exact rationals
(adequate here: the claims settled below never distinguish a decimal value from
its nearest binary double), and the Python built-ins the source calls
(`datetime.fromisoformat`, `float`, `str`, `hash`) are modelled by concrete
executable functions whose doc comments state the modelled restriction.
-/

/-- Calendar date, as produced by `datetime.fromisoformat` on the date part.
Comparison of `datetime` values is modelled through the ordinal `key`, which is
order-isomorphic to lexicographic (year, month, day) comparison for the
in-range values the parser below produces. -/
structure PyDate where
  year : Nat
  month : Nat
  day : Nat
deriving DecidableEq, Repr, Inhabited

def PyDate.key (d : PyDate) : Nat := d.year * 10000 + d.month * 100 + d.day

instance : LT PyDate := ⟨fun a b => a.key < b.key⟩
instance : LE PyDate := ⟨fun a b => a.key ≤ b.key⟩

instance (a b : PyDate) : Decidable (a < b) := inferInstanceAs (Decidable (a.key < b.key))

instance (a b : PyDate) : Decidable (a ≤ b) := inferInstanceAs (Decidable (a.key ≤ b.key))

theorem PyDate.le_of_not_lt {a b : PyDate} (h : ¬ a < b) : b ≤ a :=
  Nat.le_of_not_lt h

theorem PyDate.not_lt_of_le_of_not_lt {a b c : PyDate} (hab : a ≤ b) (h : ¬ a < c) : ¬ b < c :=
  fun hb => h (Nat.lt_of_le_of_lt hab hb)

/-- Numeric value of a decimal digit character. -/
def charVal (c : Char) : Nat := c.toNat - 48

/-- Decimal digit character for a value below ten. -/
def digitChar (d : Nat) : Char := Char.ofNat (48 + d)

/-- Models Python's `datetime.fromisoformat`, restricted to the date-only form
`YYYY-MM-DD` that this program feeds it (the day-in-month upper bound is
approximated by 31 for every month; none of the claims depends on the finer
per-month bound). An input not of that shape fails, as `fromisoformat` raises
`ValueError`. -/
def fromisoformat (s : String) : Option PyDate :=
  match s.data with
  | [y1, y2, y3, y4, s1, m1, m2, s2, d1, d2] =>
    if y1.isDigit && y2.isDigit && y3.isDigit && y4.isDigit && (s1 == '-')
        && m1.isDigit && m2.isDigit && (s2 == '-') && d1.isDigit && d2.isDigit then
      let m := charVal m1 * 10 + charVal m2
      let d := charVal d1 * 10 + charVal d2
      if 1 ≤ m ∧ m ≤ 12 ∧ 1 ≤ d ∧ d ≤ 31 then
        some ⟨charVal y1 * 1000 + charVal y2 * 100 + charVal y3 * 10 + charVal y4, m, d⟩
      else none
    else none
  | _ => none

/-- Fractional digit run after the decimal point: value and digit count.
Fails on any non-digit character, as Python's float parser does. -/
def parseFrac : List Char → Option (Nat × Nat)
  | [] => some (0, 0)
  | c :: rest =>
    if c.isDigit then
      (parseFrac rest).map (fun p => (charVal c * 10 ^ p.2 + p.1, p.2 + 1))
    else none

/-- Unsigned part of Python's float-literal parser: digits, then optionally a
dot and more digits; at least one digit overall. -/
def parseAbs : List Char → Bool → Nat → Option Rat
  | [], seen, acc => if seen then some (acc : Rat) else none
  | c :: rest, seen, acc =>
    if c == '.' then
      match parseFrac rest with
      | some (v, k) =>
        if seen || decide (0 < k) then some ((acc : Rat) + (v : Rat) / (10 : Rat) ^ k)
        else none
      | none => none
    else if c.isDigit then parseAbs rest true (acc * 10 + charVal c)
    else none

/-- Models Python's `float(text)` constructor, restricted to plain decimal
notation with an optional sign (no exponent, infinity, nan or surrounding
whitespace — the amounts this program handles are plain decimals). The value
is modelled as an exact rational. -/
def pyFloat (s : String) : Option Rat :=
  match s.data with
  | [] => none
  | c :: rest =>
    if c == '-' then (parseAbs rest false 0).map (fun q => -q)
    else if c == '+' then parseAbs rest false 0
    else parseAbs (c :: rest) false 0

/-- Fuel-bounded digit extraction, least significant digit appended last;
fuel `n` always suffices. -/
def natPrintAux : Nat → Nat → List Char
  | 0, _ => []
  | fuel + 1, n => if n = 0 then [] else natPrintAux fuel (n / 10) ++ [digitChar (n % 10)]

/-- Decimal digit characters of a natural number, most significant first. -/
def natPrint (n : Nat) : List Char :=
  if n = 0 then ['0'] else natPrintAux n n

/-- Left-pad with zero characters up to width `k`. -/
def padLeft (k : Nat) (cs : List Char) : List Char :=
  List.replicate (k - cs.length) '0' ++ cs

/-- Whether a rational is an integer. -/
def ratIsInt (q : Rat) : Bool := q.den == 1

/-- Bounded search for the least `k` with `q * 10 ^ k` integral. -/
def decExpAux (q : Rat) : Nat → Nat → Nat
  | 0, k => k
  | fuel + 1, k => if ratIsInt (q * 10 ^ k) then k else decExpAux q fuel (k + 1)

/-- Number of decimal digits needed after the point for `q`; the fuel
`q.den + 3` suffices for every value with a finite decimal form that the
theorems below consider. -/
def decExp (q : Rat) : Nat := decExpAux q (q.den + 3) 0

/-- Models Python's `str(float)` on values with a finite decimal expansion:
minimal decimal digits, at least one digit after the point (`str(5.0)` is
`"5.0"`, `str(12.34)` is `"12.34"`). -/
def pyStrChars (q : Rat) : List Char :=
  (if q < 0 then ['-'] else [])
    ++ natPrint ((q * 10 ^ decExp q).num.natAbs / 10 ^ decExp q)
    ++ '.' :: padLeft (decExp q) (natPrint ((q * 10 ^ decExp q).num.natAbs % 10 ^ decExp q))

def pyStr (q : Rat) : String := ⟨pyStrChars q⟩

/-- The transaction value class of the source: four fields, with the amount
held as a parsed float (modelled as an exact rational). -/
structure MonizzeTransaction where
  date : String
  voucher : String
  amount : Rat
  detail : String
deriving DecidableEq, Repr, Inhabited

/-- The `row` property of `MonizzeTransaction` combined with the
stringification `csv.writer` applies to the float third element: the four
textual fields actually written to the file. -/
def MonizzeTransaction.row (t : MonizzeTransaction) : List String :=
  [t.date, t.voucher, pyStr t.amount, t.detail]

/-- The source's `__hash__`: XOR of the four field hashes, for arbitrary
field-hash functions. -/
def combineHash (hS : String → Nat) (hQ : Rat → Nat) (t : MonizzeTransaction) : Nat :=
  hS t.date ^^^ hS t.voucher ^^^ hQ t.amount ^^^ hS t.detail

/-- Concrete stand-in for Python's per-process string hash (the real one is a
seeded SipHash; every theorem below about transaction equality either holds
for an arbitrary string hash or only uses that equal strings hash equal). -/
def pyHashString (s : String) : Nat :=
  s.data.foldl (fun a c => (a * 31 + c.toNat) % 18446744073709551616) 7

/-- Concrete stand-in for Python's float hash, with the same caveat as
`pyHashString`. -/
def pyHashRat (q : Rat) : Nat :=
  (q.num.natAbs * 2896045 + q.den) % 18446744073709551616

/-- `hash(transaction)` of the source. -/
def tHash : MonizzeTransaction → Nat := combineHash pyHashString pyHashRat

/-- The source's `__eq__`: true iff the two hashes coincide. -/
def tEq (a b : MonizzeTransaction) : Bool := tHash a == tHash b

/-- Membership in the accumulating Python set, which probes by hash and then
compares with `__eq__` (here: hash equality again). -/
def memH (t : MonizzeTransaction) (s : List MonizzeTransaction) : Bool :=
  s.any (fun u => tEq u t)

/-- `set.add`: a no-op when an equal element is present, else the element is
inserted (the list order models the set's unspecified iteration order). -/
def setAdd (s : List MonizzeTransaction) (t : MonizzeTransaction) : List MonizzeTransaction :=
  if memH t s then s else s ++ [t]

/-- One raw history entry of a page, as the source reads it from the JSON
payload. -/
structure RawEntry where
  date : String
  amount : String
  detail : String
deriving DecidableEq, Repr

/-- The Python exceptions the modelled code paths can raise. -/
inductive PyErr
  | indexError
  | valueError
  | stopIteration
  | typeError
deriving DecidableEq, Repr

/-- Inner loop of `MonizzeClient._add_to_history` over the entries of one
voucher group. The returned list is the state of the (mutated-in-place) set
when the loop finishes or raises, paired with the raised exception if any. -/
def addEntries (voucher : String) :
    List RawEntry → List MonizzeTransaction → Option PyErr × List MonizzeTransaction
  | [], history => (none, history)
  | e :: rest, history =>
    match pyFloat e.amount with
    | none => (some .valueError, history)
    | some q => addEntries voucher rest (setAdd history ⟨e.date, voucher, q, e.detail⟩)

/-- `MonizzeClient._add_to_history`: fold a page of `(voucher, entries)`
groups into the accumulating set, stopping at the first malformed entry. -/
def add_to_history :
    List (String × List RawEntry) → List MonizzeTransaction → Option PyErr × List MonizzeTransaction
  | [], history => (none, history)
  | (voucher, entries) :: rest, history =>
    match addEntries voucher entries history with
    | (none, h) => add_to_history rest h
    | (some e, h) => (some e, h)

/-- Lexicographic comparison of character lists by code point — Python's
string comparison, which `sorted` applies to the `date` keys. -/
def lexLe : List Char → List Char → Bool
  | [], _ => true
  | _ :: _, [] => false
  | c :: cs, d :: ds =>
    if c.toNat < d.toNat then true
    else if d.toNat < c.toNat then false
    else lexLe cs ds

/-- Python's `<=` on strings. -/
def strLe (a b : String) : Bool := lexLe a.data b.data

/-- Stable insertion by non-decreasing `date` (string comparison, exactly the
key Python's `sorted` is given in `get_history`): the new element goes after
every already-placed element whose date is not larger. -/
def insertByDate (t : MonizzeTransaction) :
    List MonizzeTransaction → List MonizzeTransaction
  | [] => [t]
  | u :: l => if strLe u.date t.date then u :: insertByDate t l else t :: u :: l

/-- `sorted(history, key=lambda transaction: transaction.date)` from
`get_history`, modelled as the (unique) stable non-decreasing-by-date sort of
the given enumeration of the set. -/
def sortedByDate (l : List MonizzeTransaction) : List MonizzeTransaction :=
  l.foldl (fun acc t => insertByDate t acc) []

/-- `MonizzeTransaction(*row)`: `TypeError` on an arity other than four,
`ValueError` when the amount text is not a float literal. -/
def mkTransaction : List String → Except PyErr MonizzeTransaction
  | [d, v, a, x] =>
    match pyFloat a with
    | some q => .ok ⟨d, v, q, x⟩
    | none => .error .valueError
  | _ => .error .typeError

/-- The fixed header row `save_csv` writes first. -/
def headerRow : List String := ["Date", "Monizze Voucher", "Amount", "Detail"]

/-- The `while older_than_current` scan of `save_csv` over the data rows of
the existing file: `StopIteration` at end of file, `IndexError` on an empty
row, `ValueError` on an unparsable date, and for a row strictly older than
`oldest` the constructed transaction is accumulated; a row not strictly older
ends the scan. -/
def scanOld (oldest : PyDate) : List (List String) → Except PyErr (List MonizzeTransaction)
  | [] => .error .stopIteration
  | row :: rest =>
    match row.head? with
    | none => .error .indexError
    | some d0 =>
      match fromisoformat d0 with
      | none => .error .valueError
      | some dt =>
        if dt < oldest then
          match mkTransaction row with
          | .ok t => (scanOld oldest rest).map (fun l => t :: l)
          | .error e => .error e
        else .ok []

/-- `save_csv`, at row granularity. The input `file` is the prior contents of
the CSV file (`none`: the file is absent, so `open` raises the caught
`FileNotFoundError`; `some rows`: the file's rows, header first). The result
is the full new file contents on success, or the uncaught exception. The
source opens the file for writing only after the whole scan has finished, so
an error outcome means nothing was written. -/
def save_csv (file : Option (List (List String))) (history : List MonizzeTransaction) :
    Except PyErr (List (List String)) :=
  match history.head? with
  | none => .error .indexError
  | some h0 =>
    match fromisoformat h0.date with
    | none => .error .valueError
    | some oldest =>
      match file with
      | none => .ok (headerRow :: (([] : List MonizzeTransaction) ++ history).map MonizzeTransaction.row)
      | some [] => .error .stopIteration
      | some (_hdr :: rows) =>
        (scanOld oldest rows).map
          (fun old => headerRow :: (old ++ history).map MonizzeTransaction.row)

/-- The file system effect of one `save_csv` run: the file is replaced by the
new contents on success and untouched when an exception escapes. -/
def runSaveCsv (file : Option (List (List String))) (history : List MonizzeTransaction) :
    Option (List (List String)) :=
  match save_csv file history with
  | .ok out => some out
  | .error _ => file

/-- The scan's test on a data row: its first field parses as a date strictly
older than `oldest`. -/
def rowOlder (oldest : PyDate) (r : List String) : Bool :=
  match r.head? with
  | some d0 =>
    match fromisoformat d0 with
    | some dt => decide (dt < oldest)
    | none => false
  | none => false

/-- A data row the scan can process: four fields, parseable date, parseable
amount. -/
def rowWf (r : List String) : Bool :=
  match r with
  | [d, _, a, _] => (fromisoformat d).isSome && (pyFloat a).isSome
  | _ => false

/-- The amount text of a row is already in the canonical form `str(float(a))`
produced by the writer — true for every row a prior run of the program
wrote. -/
def rowCanon (r : List String) : Bool :=
  match r with
  | [_, _, a, _] =>
    match pyFloat a with
    | some q => pyStr q == a
    | none => false
  | _ => false

/-- What one merge does to a preserved data row: it is parsed into a
transaction and written back, which keeps date, voucher and detail verbatim
and re-formats the amount text through `float` and `str`. -/
def reencode (r : List String) : List String :=
  match r with
  | [d, v, a, x] => [d, v, (match pyFloat a with | some q => pyStr q | none => a), x]
  | _ => r

/-- Date of a row for stating sortedness hypotheses (meaningful on rows whose
date parses). -/
def rowDate (r : List String) : PyDate :=
  match r.head? with
  | some d0 => (fromisoformat d0).getD ⟨0, 0, 0⟩
  | none => ⟨0, 0, 0⟩

/-! ## Transaction equality (claim C2) -/

/-- The XOR combination of the source's `__hash__` is symmetric in the date
and voucher fields for every choice of field-hash functions, so the hash-based
`__eq__` identifies transactions whose date and voucher are swapped no matter
how Python seeds its string hash. -/
theorem combineHash_swap (hS : String → Nat) (hQ : Rat → Nat) (d v : String) (q : Rat)
    (x : String) :
    combineHash hS hQ ⟨d, v, q, x⟩ = combineHash hS hQ ⟨v, d, q, x⟩ := by
  simp only [combineHash]
  rw [Nat.xor_comm (hS d) (hS v)]

/-- C2 counterexample: two transactions with different `date` (and `voucher`)
fields that the source's `__eq__` nevertheless reports equal, because the
XOR-combined hash is invariant under swapping the two string fields. -/
theorem tEq_swapped_fields_counterexample :
    tEq ⟨"2024-01-01", "Eco", 5, "x"⟩ ⟨"Eco", "2024-01-01", 5, "x"⟩ = true
      ∧ (⟨"2024-01-01", "Eco", 5, "x"⟩ : MonizzeTransaction).date
          ≠ (⟨"Eco", "2024-01-01", 5, "x"⟩ : MonizzeTransaction).date := by
  exact ⟨by decide, by decide⟩

/-- C2 amended: two transactions compare equal iff their XOR-combined field
hashes are equal; field-wise equality implies comparing equal, but not
conversely. -/
theorem tEq_eq_hash_eq_and_fieldwise_imp :
    (∀ a b : MonizzeTransaction, tEq a b = (tHash a == tHash b))
      ∧ (∀ a b : MonizzeTransaction, a.date = b.date → a.voucher = b.voucher →
          a.amount = b.amount → a.detail = b.detail → tEq a b = true) := by
  constructor
  · intro a b
    rfl
  · intro a b h1 h2 h3 h4
    rcases a with ⟨ad, av, aa, ax⟩
    rcases b with ⟨bd, bv, ba, bx⟩
    simp only at h1 h2 h3 h4
    subst h1; subst h2; subst h3; subst h4
    simp [tEq]

/-- Closed instance of the amended C2 theorem. -/
theorem tEq_eq_hash_eq_and_fieldwise_imp_witness :
    tEq ⟨"2024-01-01", "Eco", 5, "x"⟩ ⟨"2024-01-01", "Eco", 5, "x"⟩ = true :=
  tEq_eq_hash_eq_and_fieldwise_imp.2 _ _ rfl rfl rfl rfl

/-! ## Sorting (claim C7) -/

theorem lexLe_total : ∀ a b : List Char, lexLe a b = true ∨ lexLe b a = true := by
  intro a
  induction a with
  | nil => intro b; exact Or.inl rfl
  | cons c cs ih =>
    intro b
    cases b with
    | nil => exact Or.inr rfl
    | cons d ds =>
      simp only [lexLe]
      rcases Nat.lt_trichotomy c.toNat d.toNat with h | h | h
      · left; rw [if_pos h]
      · rw [if_neg (by omega), if_neg (by omega), if_neg (by omega), if_neg (by omega)]
        exact ih ds
      · right; rw [if_pos h]

theorem lexLe_trans : ∀ a b c : List Char,
    lexLe a b = true → lexLe b c = true → lexLe a c = true := by
  intro a
  induction a with
  | nil => intro b c _ _; rfl
  | cons x xs ih =>
    intro b c hab hbc
    cases b with
    | nil => simp [lexLe] at hab
    | cons y ys =>
      cases c with
      | nil => simp [lexLe] at hbc
      | cons z zs =>
        simp only [lexLe] at hab hbc ⊢
        by_cases hxy : x.toNat < y.toNat
        · by_cases hyz : y.toNat < z.toNat
          · rw [if_pos (by omega)]
          · rw [if_neg hyz] at hbc
            by_cases hzy : z.toNat < y.toNat
            · rw [if_pos hzy] at hbc; exact absurd hbc (by simp)
            · rw [if_pos (by omega)]
        · rw [if_neg hxy] at hab
          by_cases hyx : y.toNat < x.toNat
          · rw [if_pos hyx] at hab; exact absurd hab (by simp)
          · rw [if_neg hyx] at hab
            by_cases hyz : y.toNat < z.toNat
            · rw [if_pos (by omega)]
            · rw [if_neg hyz] at hbc
              by_cases hzy : z.toNat < y.toNat
              · rw [if_pos hzy] at hbc; exact absurd hbc (by simp)
              · rw [if_neg hzy] at hbc
                rw [if_neg (by omega), if_neg (by omega)]
                exact ih ys zs hab hbc

theorem strLe_total (a b : String) : strLe a b = true ∨ strLe b a = true :=
  lexLe_total a.data b.data

theorem strLe_trans {a b c : String} (h1 : strLe a b = true) (h2 : strLe b c = true) :
    strLe a c = true :=
  lexLe_trans a.data b.data c.data h1 h2

/-- Non-decreasing-by-date relation used by the sort. -/
def dateLe (a b : MonizzeTransaction) : Prop := strLe a.date b.date = true

instance (a b : MonizzeTransaction) : Decidable (dateLe a b) :=
  inferInstanceAs (Decidable (strLe a.date b.date = true))

theorem mem_insertByDate {x t : MonizzeTransaction} :
    ∀ {l}, x ∈ insertByDate t l → x = t ∨ x ∈ l := by
  intro l
  induction l with
  | nil => simp [insertByDate]
  | cons u l ih =>
    simp only [insertByDate]
    by_cases hut : strLe u.date t.date = true
    · rw [if_pos hut]
      intro h
      rcases List.mem_cons.mp h with h | h
      · exact Or.inr (h ▸ List.mem_cons_self u l)
      · rcases ih h with h' | h'
        · exact Or.inl h'
        · exact Or.inr (List.mem_cons_of_mem u h')
    · rw [if_neg hut]
      intro h
      rcases List.mem_cons.mp h with h | h
      · exact Or.inl h
      · exact Or.inr h

theorem pairwise_insertByDate {t : MonizzeTransaction} :
    ∀ {l}, List.Pairwise dateLe l → List.Pairwise dateLe (insertByDate t l) := by
  intro l
  induction l with
  | nil =>
    intro _
    simp [insertByDate]
  | cons u l ih =>
    intro h
    rcases List.pairwise_cons.mp h with ⟨hu, hl⟩
    simp only [insertByDate]
    by_cases hut : strLe u.date t.date = true
    · rw [if_pos hut]
      refine List.pairwise_cons.mpr ⟨?_, ih hl⟩
      intro x hx
      rcases mem_insertByDate hx with rfl | hx'
      · exact hut
      · exact hu x hx'
    · rw [if_neg hut]
      have htu : strLe t.date u.date = true := (strLe_total u.date t.date).resolve_left hut
      refine List.pairwise_cons.mpr ⟨?_, h⟩
      intro x hx
      rcases List.mem_cons.mp hx with rfl | hx'
      · exact htu
      · exact strLe_trans htu (hu x hx')

theorem pairwise_foldl_insertByDate :
    ∀ (l acc : List MonizzeTransaction), List.Pairwise dateLe acc →
      List.Pairwise dateLe (l.foldl (fun acc t => insertByDate t acc) acc) := by
  intro l
  induction l with
  | nil => intro acc h; exact h
  | cons t l ih =>
    intro acc h
    exact ih (insertByDate t acc) (pairwise_insertByDate h)

/-- C7 amended: the collection `get_history` returns is always sorted
non-decreasing by the `date` field (the string key handed to `sorted`). -/
theorem sortedByDate_sorted (l : List MonizzeTransaction) :
    List.Pairwise dateLe (sortedByDate l) :=
  pairwise_foldl_insertByDate l [] List.Pairwise.nil

/-- C7 counterexample: two enumerations of the same two-element set of
transactions sharing a date for which the stable sort returns different
orders. Python's set iteration order varies across runs with the seeded
string hash, so the tie order is not deterministic across runs. -/
theorem sortedByDate_tie_order_counterexample :
    sortedByDate [⟨"2024-01-01", "A", 1, "a"⟩, ⟨"2024-01-01", "B", 2, "b"⟩]
        ≠ sortedByDate [⟨"2024-01-01", "B", 2, "b"⟩, ⟨"2024-01-01", "A", 1, "a"⟩]
      ∧ List.Perm [⟨"2024-01-01", "A", 1, "a"⟩, ⟨"2024-01-01", "B", 2, "b"⟩]
          [(⟨"2024-01-01", "B", 2, "b"⟩ : MonizzeTransaction), ⟨"2024-01-01", "A", 1, "a"⟩] := by
  exact ⟨by decide, List.Perm.swap _ _ _⟩

/-! ## Degenerate `save_csv` inputs (claims C5, C10, C4) -/

/-- C5: on an empty fresh collection `save_csv` evaluates `history[0]` before
touching the file, so it raises `IndexError` and the record on disk is left
unchanged whether or not it exists. -/
theorem save_csv_empty_history (file : Option (List (List String))) :
    save_csv file [] = .error .indexError ∧ runSaveCsv file [] = file := by
  refine ⟨rfl, ?_⟩
  simp [runSaveCsv, save_csv]

/-- C10: when the record file exists but is empty, or holds only the header
row, the scan's `next(reader)` raises `StopIteration` — not caught by the
`FileNotFoundError` handler — and nothing is written. -/
theorem save_csv_headerless_or_header_only (h0 : MonizzeTransaction)
    (hs : List MonizzeTransaction) (d : PyDate) (hdr : List String)
    (hpar : fromisoformat h0.date = some d) :
    save_csv (some []) (h0 :: hs) = .error .stopIteration
      ∧ save_csv (some [hdr]) (h0 :: hs) = .error .stopIteration
      ∧ runSaveCsv (some []) (h0 :: hs) = some []
      ∧ runSaveCsv (some [hdr]) (h0 :: hs) = some [hdr] := by
  have h1 : save_csv (some []) (h0 :: hs) = .error .stopIteration := by
    simp [save_csv, hpar]
  have h2 : save_csv (some [hdr]) (h0 :: hs) = .error .stopIteration := by
    simp [save_csv, hpar, scanOld, Except.map]
  exact ⟨h1, h2, by simp [runSaveCsv, h1], by simp [runSaveCsv, h2]⟩

/-- Closed instance of the C10 theorem. -/
theorem save_csv_headerless_or_header_only_witness :
    fromisoformat (MonizzeTransaction.date ⟨"2024-01-05", "A", 10, "x"⟩)
        = some ⟨2024, 1, 5⟩
      ∧ save_csv (some []) [⟨"2024-01-05", "A", 10, "x"⟩] = .error .stopIteration
      ∧ save_csv (some [headerRow]) [⟨"2024-01-05", "A", 10, "x"⟩] = .error .stopIteration
      ∧ runSaveCsv (some []) [⟨"2024-01-05", "A", 10, "x"⟩] = some []
      ∧ runSaveCsv (some [headerRow]) [⟨"2024-01-05", "A", 10, "x"⟩] = some [headerRow] :=
  ⟨by decide,
    save_csv_headerless_or_header_only ⟨"2024-01-05", "A", 10, "x"⟩ [] ⟨2024, 1, 5⟩
      headerRow (by decide)⟩

/-- C4 evaluated at a failing input: a record whose rows are all strictly
older than the oldest fresh date makes the scan run past end-of-file, so
`save_csv` raises `StopIteration` instead of completing normally, and the
file keeps its old contents. -/
theorem save_csv_all_rows_older_raises :
    save_csv (some [headerRow, ["2023-01-01", "A", "5.0", "y"]])
        [⟨"2024-01-05", "A", 10, "x"⟩] = .error .stopIteration
      ∧ runSaveCsv (some [headerRow, ["2023-01-01", "A", "5.0", "y"]])
        [⟨"2024-01-05", "A", 10, "x"⟩] = some [headerRow, ["2023-01-01", "A", "5.0", "y"]] := by
  exact ⟨rfl, rfl⟩

/-! ## Dedup idempotence (claim C6) -/

theorem tEq_self (t : MonizzeTransaction) : tEq t t = true := by
  simp [tEq]

theorem memH_setAdd_self (t : MonizzeTransaction) (s : List MonizzeTransaction) :
    memH t (setAdd s t) = true := by
  unfold setAdd
  by_cases h : memH t s = true
  · rw [if_pos h]; exact h
  · rw [if_neg h]
    simp [memH, List.any_append, tEq_self]

theorem memH_setAdd_mono {u : MonizzeTransaction} {s : List MonizzeTransaction}
    (t : MonizzeTransaction) (h : memH u s = true) : memH u (setAdd s t) = true := by
  unfold setAdd
  by_cases hm : memH t s = true
  · rw [if_pos hm]; exact h
  · rw [if_neg hm]
    simp only [memH, List.any_append] at h ⊢
    rw [h]
    rfl

theorem setAdd_of_mem {t : MonizzeTransaction} {s : List MonizzeTransaction}
    (h : memH t s = true) : setAdd s t = s := by
  unfold setAdd
  rw [if_pos h]

/-- Hash-membership inclusion between two states of the accumulating set. -/
def subH (s1 s2 : List MonizzeTransaction) : Prop :=
  ∀ u, memH u s1 = true → memH u s2 = true

theorem subH_refl (s : List MonizzeTransaction) : subH s s := fun _ h => h

theorem subH_trans {a b c : List MonizzeTransaction} (h1 : subH a b) (h2 : subH b c) :
    subH a c := fun u h => h2 u (h1 u h)

theorem subH_setAdd (s : List MonizzeTransaction) (t : MonizzeTransaction) :
    subH s (setAdd s t) := fun _ h => memH_setAdd_mono t h

theorem addEntries_sub (v : String) :
    ∀ (es : List RawEntry) (h : List MonizzeTransaction), subH h (addEntries v es h).2 := by
  intro es
  induction es with
  | nil => intro h; exact subH_refl h
  | cons e rest ih =>
    intro h
    cases hpf : pyFloat e.amount with
    | none => simp only [addEntries, hpf]; exact subH_refl h
    | some q =>
      simp only [addEntries, hpf]
      exact subH_trans (subH_setAdd h _) (ih _)

theorem addEntries_again (v : String) :
    ∀ (es : List RawEntry) (h h2 : List MonizzeTransaction),
      subH (addEntries v es h).2 h2 → addEntries v es h2 = ((addEntries v es h).1, h2) := by
  intro es
  induction es with
  | nil =>
    intro h h2 _
    rfl
  | cons e rest ih =>
    intro h h2 hsub
    cases hpf : pyFloat e.amount with
    | none => simp only [addEntries, hpf]
    | some q =>
      simp only [addEntries, hpf] at hsub ⊢
      have ht : memH ⟨e.date, v, q, e.detail⟩ h2 = true :=
        hsub _ (addEntries_sub v rest _ _ (memH_setAdd_self _ _))
      rw [setAdd_of_mem ht]
      exact ih (setAdd h ⟨e.date, v, q, e.detail⟩) h2 hsub

theorem add_to_history_sub :
    ∀ (p : List (String × List RawEntry)) (h : List MonizzeTransaction),
      subH h (add_to_history p h).2 := by
  intro p
  induction p with
  | nil => intro h; exact subH_refl h
  | cons g rest ih =>
    obtain ⟨v, es⟩ := g
    intro h
    cases hae : addEntries v es h with
    | mk e1 h1 =>
      have hs : subH h h1 := by
        have hsub := addEntries_sub v es h
        rw [hae] at hsub
        exact hsub
      cases e1 with
      | none =>
        simp only [add_to_history, hae]
        exact subH_trans hs (ih h1)
      | some err =>
        simp only [add_to_history, hae]
        exact hs

theorem add_to_history_again :
    ∀ (p : List (String × List RawEntry)) (h h2 : List MonizzeTransaction),
      subH (add_to_history p h).2 h2 → add_to_history p h2 = ((add_to_history p h).1, h2) := by
  intro p
  induction p with
  | nil =>
    intro h h2 _
    rfl
  | cons g rest ih =>
    obtain ⟨v, es⟩ := g
    intro h h2 hsub
    cases hae : addEntries v es h with
    | mk e1 h1 =>
      cases e1 with
      | none =>
        simp only [add_to_history, hae] at hsub ⊢
        have hs1 : subH h1 h2 := subH_trans (add_to_history_sub rest h1) hsub
        have hnew : addEntries v es h2 = (none, h2) := by
          have h' := addEntries_again v es h h2 (by rw [hae]; exact hs1)
          rw [hae] at h'
          exact h'
        simp only [hnew]
        exact ih h1 h2 hsub
      | some err =>
        simp only [add_to_history, hae] at hsub ⊢
        have hnew : addEntries v es h2 = (some err, h2) := by
          have h' := addEntries_again v es h h2 (by rw [hae]; exact hsub)
          rw [hae] at h'
          exact h'
        simp only [hnew]

/-- C6: adding the same raw page twice to the accumulating set yields exactly
the same outcome (same error, same set, hence the same sorted collection) as
adding it once, and re-adding an already-present transaction never grows the
set. -/
theorem add_to_history_idempotent :
    (∀ (p : List (String × List RawEntry)) (h : List MonizzeTransaction),
        add_to_history p (add_to_history p h).2 = add_to_history p h)
      ∧ (∀ (p : List (String × List RawEntry)) (h : List MonizzeTransaction),
          sortedByDate (add_to_history p (add_to_history p h).2).2
            = sortedByDate (add_to_history p h).2)
      ∧ (∀ (t : MonizzeTransaction) (s : List MonizzeTransaction),
          memH t s = true → (setAdd s t).length = s.length) := by
  have key : ∀ (p : List (String × List RawEntry)) (h : List MonizzeTransaction),
      add_to_history p (add_to_history p h).2 = add_to_history p h := by
    intro p h
    have h' := add_to_history_again p h (add_to_history p h).2 (subH_refl _)
    rw [h']
  refine ⟨key, ?_, ?_⟩
  · intro p h
    rw [key p h]
  · intro t s h
    unfold setAdd
    rw [if_pos h]

/-- Closed instance of the C6 theorem. -/
theorem add_to_history_idempotent_witness :
    memH ⟨"2024-01-01", "A", 1, "a"⟩ [⟨"2024-01-01", "A", 1, "a"⟩] = true
      ∧ (setAdd [⟨"2024-01-01", "A", 1, "a"⟩] ⟨"2024-01-01", "A", 1, "a"⟩).length
          = [(⟨"2024-01-01", "A", 1, "a"⟩ : MonizzeTransaction)].length :=
  ⟨by decide, add_to_history_idempotent.2.2 _ _ (by decide)⟩

/-! ## The preserved-old-rows scan of `save_csv` (claims C3, C9, C1) -/

theorem rowWf_shape {r : List String} (h : rowWf r = true) :
    ∃ d v a x, r = [d, v, a, x] ∧ (fromisoformat d).isSome ∧ (pyFloat a).isSome := by
  rcases r with _ | ⟨d, r⟩
  · exact absurd h (by simp [rowWf])
  rcases r with _ | ⟨v, r⟩
  · exact absurd h (by simp [rowWf])
  rcases r with _ | ⟨a, r⟩
  · exact absurd h (by simp [rowWf])
  rcases r with _ | ⟨x, r⟩
  · exact absurd h (by simp [rowWf])
  rcases r with _ | ⟨y, r⟩
  · simp only [rowWf, Bool.and_eq_true] at h
    exact ⟨d, v, a, x, rfl, h.1, h.2⟩
  · exact absurd h (by simp [rowWf])

theorem mkTransaction_of_wf {r : List String} (h : rowWf r = true) :
    ∃ t : MonizzeTransaction, mkTransaction r = .ok t
      ∧ MonizzeTransaction.row t = reencode r
      ∧ (rowCanon r = true → reencode r = r) := by
  obtain ⟨d, v, a, x, rfl, _, ha⟩ := rowWf_shape h
  obtain ⟨q, hq⟩ := Option.isSome_iff_exists.mp ha
  refine ⟨⟨d, v, q, x⟩, ?_, ?_, ?_⟩
  · simp [mkTransaction, hq]
  · simp [MonizzeTransaction.row, reencode, hq]
  · intro hc
    simp only [rowCanon, hq] at hc
    simp [reencode, hq, eq_of_beq hc]

theorem rowOlder_eq_of_wf {r : List String} (h : rowWf r = true) (oldest : PyDate) :
    rowOlder oldest r = decide (rowDate r < oldest) := by
  obtain ⟨d, v, a, x, rfl, hd, _⟩ := rowWf_shape h
  obtain ⟨dt, hdt⟩ := Option.isSome_iff_exists.mp hd
  simp [rowOlder, rowDate, hdt]

theorem scanOld_ok (oldest : PyDate) :
    ∀ rows : List (List String),
      (∀ r ∈ rows, rowWf r = true) →
      (∃ r ∈ rows, rowOlder oldest r = false) →
      ∃ ts, scanOld oldest rows = .ok ts
        ∧ ts.map MonizzeTransaction.row = (rows.takeWhile (rowOlder oldest)).map reencode := by
  intro rows
  induction rows with
  | nil =>
    intro _ hex
    rcases hex with ⟨r, hr, _⟩
    cases hr
  | cons r rest ih =>
    intro hwf hex
    have hwr : rowWf r = true := hwf r (List.mem_cons_self r rest)
    obtain ⟨d, v, a, x, rfl, hd, ha⟩ := rowWf_shape hwr
    obtain ⟨dt, hdt⟩ := Option.isSome_iff_exists.mp hd
    by_cases hold : rowOlder oldest [d, v, a, x] = true
    · have hlt : dt < oldest := by
        simp only [rowOlder, List.head?_cons, hdt] at hold
        exact of_decide_eq_true hold
      obtain ⟨t, hmk, hrow, _⟩ := mkTransaction_of_wf hwr
      have hex' : ∃ r' ∈ rest, rowOlder oldest r' = false := by
        rcases hex with ⟨r', hr', hfalse⟩
        rcases List.mem_cons.mp hr' with rfl | hmem
        · rw [hold] at hfalse
          cases hfalse
        · exact ⟨r', hmem, hfalse⟩
      obtain ⟨ts, hscan, hmap⟩ := ih (fun r hr => hwf r (List.mem_cons_of_mem _ hr)) hex'
      refine ⟨t :: ts, ?_, ?_⟩
      · simp only [scanOld, List.head?_cons, hdt, if_pos hlt, hmk, hscan, Except.map]
      · rw [List.takeWhile_cons_of_pos hold, List.map_cons, List.map_cons, hrow, hmap]
    · have hnlt : ¬ dt < oldest := by
        intro hlt
        apply hold
        simp only [rowOlder, List.head?_cons, hdt]
        exact decide_eq_true hlt
      refine ⟨[], ?_, ?_⟩
      · simp only [scanOld, List.head?_cons, hdt, if_neg hnlt]
      · rw [List.takeWhile_cons_of_neg hold]
        rfl

/-- Shared core of the merge theorems: under the scan's success conditions,
`save_csv` writes the header, then the re-encoding of the leading run of rows
strictly older than `oldest`, then the fresh collection's rows. -/
theorem save_csv_merge_core (h0 : MonizzeTransaction) (hs : List MonizzeTransaction)
    (oldest : PyDate) (hdr : List String) (rows : List (List String))
    (hpar : fromisoformat h0.date = some oldest)
    (hwf : ∀ r ∈ rows, rowWf r = true)
    (hex : ∃ r ∈ rows, rowOlder oldest r = false) :
    save_csv (some (hdr :: rows)) (h0 :: hs)
      = .ok (headerRow :: ((rows.takeWhile (rowOlder oldest)).map reencode
          ++ (h0 :: hs).map MonizzeTransaction.row)) := by
  obtain ⟨ts, hscan, hmap⟩ := scanOld_ok oldest rows hwf hex
  simp only [save_csv, List.head?_cons, hpar, hscan, Except.map]
  rw [List.map_append, hmap]

theorem scanOld_error_on_bad (oldest : PyDate) :
    ∀ good : List (List String),
      (∀ r ∈ good, rowWf r = true ∧ rowOlder oldest r = true) →
      ∀ (bad : List String) (rest : List (List String)) (s0 : String),
        bad.head? = some s0 → fromisoformat s0 = none →
        scanOld oldest (good ++ bad :: rest) = .error .valueError := by
  intro good
  induction good with
  | nil =>
    intro _ bad rest s0 hh hn
    simp only [List.nil_append, scanOld, hh, hn]
  | cons r good' ih =>
    intro hgood bad rest s0 hh hn
    obtain ⟨hwr, hold⟩ := hgood r (List.mem_cons_self r good')
    obtain ⟨d, v, a, x, rfl, hd, ha⟩ := rowWf_shape hwr
    obtain ⟨dt, hdt⟩ := Option.isSome_iff_exists.mp hd
    have hlt : dt < oldest := by
      simp only [rowOlder, List.head?_cons, hdt] at hold
      exact of_decide_eq_true hold
    obtain ⟨t, hmk, _, _⟩ := mkTransaction_of_wf hwr
    have hrec := ih (fun r hr => hgood r (List.mem_cons_of_mem _ hr)) bad rest s0 hh hn
    have hstep : scanOld oldest (([d, v, a, x] :: good') ++ bad :: rest)
        = (scanOld oldest (good' ++ bad :: rest)).map (fun l => t :: l) := by
      simp only [List.cons_append, scanOld, List.head?_cons, hdt, if_pos hlt, hmk,
        List.append_eq]
    rw [hstep, hrec]
    rfl

/-- C3: a row with an unparsable date reached during the prefix scan makes
`save_csv` raise `ValueError` before the write step; the record file keeps
its prior contents byte-for-byte. -/
theorem save_csv_unparsable_date_aborts (h0 : MonizzeTransaction)
    (hs : List MonizzeTransaction) (oldest : PyDate) (hdr bad : List String)
    (good rest : List (List String)) (s0 : String)
    (hpar : fromisoformat h0.date = some oldest)
    (hgood : ∀ r ∈ good, rowWf r = true ∧ rowOlder oldest r = true)
    (hh : bad.head? = some s0) (hn : fromisoformat s0 = none) :
    save_csv (some (hdr :: (good ++ bad :: rest))) (h0 :: hs) = .error .valueError
      ∧ runSaveCsv (some (hdr :: (good ++ bad :: rest))) (h0 :: hs)
          = some (hdr :: (good ++ bad :: rest)) := by
  have hscan := scanOld_error_on_bad oldest good hgood bad rest s0 hh hn
  have h1 : save_csv (some (hdr :: (good ++ bad :: rest))) (h0 :: hs) = .error .valueError := by
    simp only [save_csv, List.head?_cons, hpar, hscan, Except.map]
  exact ⟨h1, by simp [runSaveCsv, h1]⟩

/-- Closed instance of the C3 theorem. -/
theorem save_csv_unparsable_date_aborts_witness :
    fromisoformat (MonizzeTransaction.date ⟨"2024-01-05", "C", 7, "w"⟩) = some ⟨2024, 1, 5⟩
      ∧ (∀ r ∈ [["2020-01-01", "A", "5.0", "y"]],
          rowWf r = true ∧ rowOlder ⟨2024, 1, 5⟩ r = true)
      ∧ (["oops", "B", "6.0", "z"] : List String).head? = some "oops"
      ∧ fromisoformat "oops" = none
      ∧ save_csv (some [headerRow, ["2020-01-01", "A", "5.0", "y"], ["oops", "B", "6.0", "z"]])
          [⟨"2024-01-05", "C", 7, "w"⟩] = .error .valueError
      ∧ runSaveCsv (some [headerRow, ["2020-01-01", "A", "5.0", "y"], ["oops", "B", "6.0", "z"]])
          [⟨"2024-01-05", "C", 7, "w"⟩]
          = some [headerRow, ["2020-01-01", "A", "5.0", "y"], ["oops", "B", "6.0", "z"]] := by
  refine ⟨by decide, by decide, by decide, by decide, ?_⟩
  exact save_csv_unparsable_date_aborts ⟨"2024-01-05", "C", 7, "w"⟩ [] ⟨2024, 1, 5⟩
    headerRow ["oops", "B", "6.0", "z"] [["2020-01-01", "A", "5.0", "y"]] [] "oops"
    (by decide) (by decide) (by decide) (by decide)

/-- C9 counterexample: a preserved row whose stored amount text is `"10.00"`
is rewritten as `"10.0"` — the merge re-encodes preserved rows through
`float`/`str` instead of copying them, so a field is not always textually
identical to how it was stored. -/
theorem save_csv_preserved_row_rewritten_counterexample :
    save_csv (some [headerRow, ["2020-01-01", "A", "10.00", "y"], ["2024-02-01", "B", "6.0", "z"]])
        [⟨"2024-01-05", "C", 7, "w"⟩]
      = .ok [headerRow, ["2020-01-01", "A", "10.0", "y"], ["2024-01-05", "C", "7.0", "w"]]
      ∧ (["2020-01-01", "A", "10.0", "y"] : List String) ≠ ["2020-01-01", "A", "10.00", "y"] :=
  ⟨by with_unfolding_all rfl, by decide⟩

/-- C9 amended: every preserved-prefix row is written back with its date,
voucher and detail fields textually identical and in the original order; the
amount field alone is re-formatted as `str(float(amount))`, which is the
identity exactly on amount texts already in the writer's canonical form. -/
theorem save_csv_preserved_rows_reencoded (h0 : MonizzeTransaction)
    (hs : List MonizzeTransaction) (oldest : PyDate) (hdr : List String)
    (rows : List (List String))
    (hpar : fromisoformat h0.date = some oldest)
    (hwf : ∀ r ∈ rows, rowWf r = true)
    (hex : ∃ r ∈ rows, rowOlder oldest r = false) :
    save_csv (some (hdr :: rows)) (h0 :: hs)
        = .ok (headerRow :: ((rows.takeWhile (rowOlder oldest)).map reencode
            ++ (h0 :: hs).map MonizzeTransaction.row))
      ∧ (∀ d v a x q, pyFloat a = some q → reencode [d, v, a, x] = [d, v, pyStr q, x]) := by
  refine ⟨save_csv_merge_core h0 hs oldest hdr rows hpar hwf hex, ?_⟩
  intro d v a x q hq
  simp [reencode, hq]

/-- Closed instance of the amended C9 theorem. -/
theorem save_csv_preserved_rows_reencoded_witness :
    fromisoformat (MonizzeTransaction.date ⟨"2024-01-05", "C", 7, "w"⟩) = some ⟨2024, 1, 5⟩
      ∧ (∀ r ∈ [["2020-01-01", "A", "10.00", "y"], ["2024-02-01", "B", "6.0", "z"]],
          rowWf r = true)
      ∧ (∃ r ∈ [["2020-01-01", "A", "10.00", "y"], ["2024-02-01", "B", "6.0", "z"]],
          rowOlder ⟨2024, 1, 5⟩ r = false)
      ∧ save_csv
          (some [["h"], ["2020-01-01", "A", "10.00", "y"], ["2024-02-01", "B", "6.0", "z"]])
          [⟨"2024-01-05", "C", 7, "w"⟩]
        = .ok (headerRow ::
            (([["2020-01-01", "A", "10.00", "y"], ["2024-02-01", "B", "6.0", "z"]].takeWhile
                (rowOlder ⟨2024, 1, 5⟩)).map reencode
              ++ [(⟨"2024-01-05", "C", 7, "w"⟩ : MonizzeTransaction)].map
                  MonizzeTransaction.row)) := by
  refine ⟨by decide, by decide, by decide, ?_⟩
  exact (save_csv_preserved_rows_reencoded ⟨"2024-01-05", "C", 7, "w"⟩ [] ⟨2024, 1, 5⟩
    ["h"] [["2020-01-01", "A", "10.00", "y"], ["2024-02-01", "B", "6.0", "z"]]
    (by decide) (by decide) (by decide)).1

theorem takeWhile_eq_filter_of_asc (oldest : PyDate) :
    ∀ rows : List (List String),
      (∀ r ∈ rows, rowWf r = true) →
      List.Pairwise (fun r1 r2 => rowDate r1 ≤ rowDate r2) rows →
      rows.filter (rowOlder oldest) = rows.takeWhile (rowOlder oldest) := by
  intro rows
  induction rows with
  | nil => intro _ _; rfl
  | cons r rest ih =>
    intro hwf hp
    rcases List.pairwise_cons.mp hp with ⟨hr, hrest⟩
    by_cases hold : rowOlder oldest r = true
    · rw [List.filter_cons_of_pos hold, List.takeWhile_cons_of_pos hold,
        ih (fun r' hr' => hwf r' (List.mem_cons_of_mem _ hr')) hrest]
    · rw [List.filter_cons_of_neg hold, List.takeWhile_cons_of_neg hold]
      have hnlt : ¬ rowDate r < oldest := by
        intro hlt
        apply hold
        rw [rowOlder_eq_of_wf (hwf r (List.mem_cons_self r rest)) oldest]
        exact decide_eq_true hlt
      refine List.filter_eq_nil_iff.mpr ?_
      intro r' hr'
      rw [rowOlder_eq_of_wf (hwf r' (List.mem_cons_of_mem _ hr')) oldest]
      simp only [decide_eq_true_eq]
      exact PyDate.not_lt_of_le_of_not_lt (hr r' hr') hnlt

/-- C1: with a non-empty, date-sorted fresh collection and an existing record
whose rows are well-formed (four fields, parseable date, amount in the
writer's canonical form — true of any record a prior run produced), ascending
by date, and containing at least one row not strictly older than the oldest
fresh date, `save_csv` writes exactly the fixed header row, then exactly the
existing rows strictly older than the oldest fresh date in their original
order, then the fresh collection's rows in their given ascending order,
replacing the whole file; when the record file is absent the output is
exactly the header plus the fresh collection. -/
theorem save_csv_merge (h0 : MonizzeTransaction) (hs : List MonizzeTransaction)
    (oldest : PyDate) (hdr : List String) (rows : List (List String))
    (hpar : fromisoformat h0.date = some oldest)
    (hsorted : List.Pairwise dateLe (h0 :: hs))
    (hwf : ∀ r ∈ rows, rowWf r = true)
    (hcanon : ∀ r ∈ rows, rowCanon r = true)
    (hasc : List.Pairwise (fun r1 r2 => rowDate r1 ≤ rowDate r2) rows)
    (hex : ∃ r ∈ rows, rowOlder oldest r = false) :
    save_csv (some (hdr :: rows)) (h0 :: hs)
        = .ok (headerRow ::
            (rows.filter (rowOlder oldest) ++ (h0 :: hs).map MonizzeTransaction.row))
      ∧ save_csv none (h0 :: hs)
          = .ok (headerRow :: (h0 :: hs).map MonizzeTransaction.row) := by
  constructor
  · rw [save_csv_merge_core h0 hs oldest hdr rows hpar hwf hex]
    have hid : (rows.takeWhile (rowOlder oldest)).map reencode
        = rows.takeWhile (rowOlder oldest) := by
      have hsub : rows.takeWhile (rowOlder oldest) ⊆ rows :=
        (List.takeWhile_sublist (rowOlder oldest)).subset
      rw [List.map_congr_left (fun r hr => ?_), List.map_id]
      obtain ⟨_, _, _, hcr⟩ := mkTransaction_of_wf (hwf r (hsub hr))
      exact hcr (hcanon r (hsub hr))
    rw [hid, takeWhile_eq_filter_of_asc oldest rows hwf hasc]
  · simp [save_csv, hpar]

/-- Closed instance of the C1 theorem. -/
theorem save_csv_merge_witness :
    fromisoformat (MonizzeTransaction.date ⟨"2024-01-05", "C", 7, "w"⟩) = some ⟨2024, 1, 5⟩
      ∧ List.Pairwise dateLe [(⟨"2024-01-05", "C", 7, "w"⟩ : MonizzeTransaction)]
      ∧ (∀ r ∈ [["2020-01-01", "A", "5.0", "y"], ["2024-02-01", "B", "6.5", "z"]],
          rowWf r = true)
      ∧ (∀ r ∈ [["2020-01-01", "A", "5.0", "y"], ["2024-02-01", "B", "6.5", "z"]],
          rowCanon r = true)
      ∧ List.Pairwise (fun r1 r2 => rowDate r1 ≤ rowDate r2)
          [["2020-01-01", "A", "5.0", "y"], ["2024-02-01", "B", "6.5", "z"]]
      ∧ (∃ r ∈ [["2020-01-01", "A", "5.0", "y"], ["2024-02-01", "B", "6.5", "z"]],
          rowOlder ⟨2024, 1, 5⟩ r = false)
      ∧ save_csv
          (some [headerRow, ["2020-01-01", "A", "5.0", "y"], ["2024-02-01", "B", "6.5", "z"]])
          [⟨"2024-01-05", "C", 7, "w"⟩]
        = .ok (headerRow ::
            ([["2020-01-01", "A", "5.0", "y"], ["2024-02-01", "B", "6.5", "z"]].filter
                (rowOlder ⟨2024, 1, 5⟩)
              ++ [(⟨"2024-01-05", "C", 7, "w"⟩ : MonizzeTransaction)].map
                  MonizzeTransaction.row))
      ∧ save_csv none [⟨"2024-01-05", "C", 7, "w"⟩]
          = .ok (headerRow :: [(⟨"2024-01-05", "C", 7, "w"⟩ : MonizzeTransaction)].map
              MonizzeTransaction.row) := by
  refine ⟨by decide, by decide, by decide, by with_unfolding_all decide, by decide,
    by decide, ?_, ?_⟩
  · exact (save_csv_merge ⟨"2024-01-05", "C", 7, "w"⟩ [] ⟨2024, 1, 5⟩ headerRow
      [["2020-01-01", "A", "5.0", "y"], ["2024-02-01", "B", "6.5", "z"]]
      (by decide) (by decide) (by decide) (by with_unfolding_all decide) (by decide)
      (by decide)).1
  · exact (save_csv_merge ⟨"2024-01-05", "C", 7, "w"⟩ [] ⟨2024, 1, 5⟩ headerRow
      [["2020-01-01", "A", "5.0", "y"], ["2024-02-01", "B", "6.5", "z"]]
      (by decide) (by decide) (by decide) (by with_unfolding_all decide) (by decide)
      (by decide)).2

/-! ## Decidability of `Except` results -/

instance {ε α : Type} [DecidableEq ε] [DecidableEq α] : DecidableEq (Except ε α) := fun a b =>
  match a, b with
  | .error x, .error y =>
    if h : x = y then .isTrue (h ▸ rfl) else .isFalse (fun hc => h (Except.error.inj hc))
  | .ok x, .ok y =>
    if h : x = y then .isTrue (h ▸ rfl) else .isFalse (fun hc => h (Except.ok.inj hc))
  | .error _, .ok _ => .isFalse (fun hc => Except.noConfusion hc)
  | .ok _, .error _ => .isFalse (fun hc => Except.noConfusion hc)

/-! ## Round-trip of the amount through `str` and `float` (claim C8) -/

/-- Value of a digit string read left to right, as both parsers accumulate
it. -/
def natOfDigits (cs : List Char) : Nat :=
  cs.foldl (fun a c => a * 10 + charVal c) 0

theorem charVal_digitChar_all : ∀ d : Nat, d < 10 → charVal (digitChar d) = d := by decide

theorem charVal_digitChar {d : Nat} (h : d < 10) : charVal (digitChar d) = d :=
  charVal_digitChar_all d h

theorem isDigit_digitChar_all : ∀ d : Nat, d < 10 → (digitChar d).isDigit = true := by decide

theorem isDigit_digitChar {d : Nat} (h : d < 10) : (digitChar d).isDigit = true :=
  isDigit_digitChar_all d h

theorem isDigit_ne_of {c c0 : Char} (h : c.isDigit = true) (h0 : c0.isDigit = false) :
    (c == c0) = false := by
  cases hc : c == c0
  · rfl
  · rw [eq_of_beq hc] at h
    rw [h] at h0
    cases h0

theorem foldl_digits_split (cs : List Char) :
    ∀ a : Nat, cs.foldl (fun x c => x * 10 + charVal c) a
      = a * 10 ^ cs.length + natOfDigits cs := by
  induction cs with
  | nil => intro a; simp [natOfDigits]
  | cons c t ih =>
    intro a
    have hc : natOfDigits (c :: t) = charVal c * 10 ^ t.length + natOfDigits t := by
      show List.foldl _ (0 * 10 + charVal c) t = _
      rw [ih (0 * 10 + charVal c)]
      ring_nf
    show List.foldl _ (a * 10 + charVal c) t = _
    rw [ih (a * 10 + charVal c), hc, List.length_cons]
    ring

theorem natPrintAux_eq_digits :
    ∀ (fuel n : Nat), n ≤ fuel →
      natPrintAux fuel n = (Nat.digits 10 n).reverse.map digitChar := by
  intro fuel
  induction fuel with
  | zero =>
    intro n hn
    interval_cases n
    simp [natPrintAux]
  | succ fuel ih =>
    intro n hn
    by_cases h0 : n = 0
    · subst h0
      simp [natPrintAux]
    · have hrec : Nat.digits 10 n = n % 10 :: Nat.digits 10 (n / 10) :=
        Nat.digits_def' (by norm_num) (Nat.pos_of_ne_zero h0)
      have hdiv : n / 10 ≤ fuel := by
        have := Nat.div_lt_self (Nat.pos_of_ne_zero h0) (by norm_num : 1 < 10)
        omega
      simp only [natPrintAux, if_neg h0, hrec, List.reverse_cons, List.map_append,
        List.map_cons, List.map_nil, ih (n / 10) hdiv]

theorem natOfDigits_reverse_map :
    ∀ L : List Nat, (∀ d ∈ L, d < 10) →
      natOfDigits (L.reverse.map digitChar) = Nat.ofDigits 10 L := by
  intro L
  induction L with
  | nil => intro _; rfl
  | cons d t ih =>
    intro hd
    rw [List.reverse_cons, List.map_append, List.map_cons, List.map_nil]
    show (t.reverse.map digitChar ++ [digitChar d]).foldl _ 0 = _
    rw [List.foldl_append]
    have h1 : (t.reverse.map digitChar).foldl (fun a c => a * 10 + charVal c) 0
        = Nat.ofDigits 10 t := ih (fun x hx => hd x (List.mem_cons_of_mem d hx))
    rw [h1]
    simp only [List.foldl_cons, List.foldl_nil]
    rw [charVal_digitChar (hd d (List.mem_cons_self d t))]
    rw [Nat.ofDigits_cons]
    push_cast
    ring_nf

theorem natOfDigits_natPrint (n : Nat) : natOfDigits (natPrint n) = n := by
  by_cases h0 : n = 0
  · subst h0
    rfl
  · rw [natPrint, if_neg h0, natPrintAux_eq_digits n n (le_refl n),
      natOfDigits_reverse_map (Nat.digits 10 n) (fun d hd => Nat.digits_lt_base (by norm_num) hd)]
    have := Nat.ofDigits_digits 10 n
    exact_mod_cast this

theorem natPrint_all_digits (n : Nat) : (natPrint n).all Char.isDigit = true := by
  by_cases h0 : n = 0
  · subst h0
    rfl
  · rw [natPrint, if_neg h0, natPrintAux_eq_digits n n (le_refl n)]
    rw [List.all_eq_true]
    intro c hc
    rw [List.mem_map] at hc
    obtain ⟨d, hd, rfl⟩ := hc
    exact isDigit_digitChar (Nat.digits_lt_base (by norm_num) (List.mem_reverse.mp hd))

theorem natPrint_ne_nil (n : Nat) : natPrint n ≠ [] := by
  by_cases h0 : n = 0
  · subst h0
    simp [natPrint]
  · rw [natPrint, if_neg h0, natPrintAux_eq_digits n n (le_refl n)]
    intro hc
    have hlen := congrArg List.length hc
    simp only [List.length_map, List.length_reverse, List.length_nil] at hlen
    exact (Nat.digits_ne_nil_iff_ne_zero.mpr h0) (List.length_eq_zero.mp hlen)

theorem natPrint_length_le {n K : Nat} (hK : 1 ≤ K) (hn : n < 10 ^ K) :
    (natPrint n).length ≤ K := by
  by_cases h0 : n = 0
  · subst h0
    simpa [natPrint] using hK
  · rw [natPrint, if_neg h0, natPrintAux_eq_digits n n (le_refl n), List.length_map,
      List.length_reverse, Nat.digits_len 10 n (by norm_num) h0]
    have := Nat.log_lt_of_lt_pow h0 hn
    omega

theorem parseFrac_digits :
    ∀ cs : List Char, cs.all Char.isDigit = true →
      parseFrac cs = some (natOfDigits cs, cs.length) := by
  intro cs
  induction cs with
  | nil => intro _; rfl
  | cons c t ih =>
    intro h
    rw [List.all_cons, Bool.and_eq_true] at h
    have hval : natOfDigits (c :: t) = charVal c * 10 ^ t.length + natOfDigits t := by
      show List.foldl _ (0 * 10 + charVal c) t = _
      rw [foldl_digits_split t (0 * 10 + charVal c)]
      ring_nf
    simp only [parseFrac, if_pos h.1, ih h.2, Option.map_some', List.length_cons, hval]

theorem parseAbs_digits_run :
    ∀ dig : List Char, dig.all Char.isDigit = true →
      ∀ (rest : List Char) (seen : Bool) (acc : Nat),
        parseAbs (dig ++ rest) seen acc
          = parseAbs rest (seen || !dig.isEmpty)
              (dig.foldl (fun a c => a * 10 + charVal c) acc) := by
  intro dig
  induction dig with
  | nil =>
    intro _ rest seen acc
    simp
  | cons c t ih =>
    intro h rest seen acc
    rw [List.all_cons, Bool.and_eq_true] at h
    have h1 : ¬ ((c == '.') = true) := by
      rw [isDigit_ne_of h.1 (by decide)]
      exact Bool.false_ne_true
    calc parseAbs ((c :: t) ++ rest) seen acc
        = parseAbs (t ++ rest) true (acc * 10 + charVal c) := by
          rw [List.cons_append]
          simp only [parseAbs]
          rw [if_neg h1, if_pos h.1]
      _ = parseAbs rest (true || !t.isEmpty)
            (t.foldl (fun a c => a * 10 + charVal c) (acc * 10 + charVal c)) :=
          ih h.2 rest true (acc * 10 + charVal c)
      _ = parseAbs rest (seen || !(c :: t).isEmpty)
            ((c :: t).foldl (fun a c => a * 10 + charVal c) acc) := by
          simp

theorem natOfDigits_replicate_zero (z : Nat) (cs : List Char) :
    natOfDigits (List.replicate z '0' ++ cs) = natOfDigits cs := by
  induction z with
  | zero => rfl
  | succ z ih =>
    have h0 : (0 * 10 + charVal '0') = 0 := by decide
    show List.foldl _ (0 * 10 + charVal '0') (List.replicate z '0' ++ cs) = _
    rw [h0]
    exact ih

theorem natOfDigits_padLeft (k : Nat) (cs : List Char) :
    natOfDigits (padLeft k cs) = natOfDigits cs :=
  natOfDigits_replicate_zero _ _

theorem padLeft_all_digits {cs : List Char} (h : cs.all Char.isDigit = true) (k : Nat) :
    (padLeft k cs).all Char.isDigit = true := by
  simp only [padLeft, List.all_append, h, Bool.and_true]
  rw [List.all_eq_true]
  intro c hc
  rw [List.mem_replicate] at hc
  rw [hc.2]
  rfl

theorem padLeft_length {cs : List Char} {k : Nat} (h : cs.length ≤ k) :
    (padLeft k cs).length = k := by
  simp only [padLeft, List.length_append, List.length_replicate]
  omega

theorem decExpAux_finds (q : Rat) :
    ∀ fuel k : Nat, (∃ j, k ≤ j ∧ j < k + fuel ∧ ratIsInt (q * 10 ^ j) = true) →
      ratIsInt (q * 10 ^ decExpAux q fuel k) = true := by
  intro fuel
  induction fuel with
  | zero =>
    intro k hj
    obtain ⟨j, h1, h2, _⟩ := hj
    omega
  | succ fuel ih =>
    intro k hj
    by_cases hk : ratIsInt (q * 10 ^ k) = true
    · simp only [decExpAux, if_pos hk]
      exact hk
    · simp only [decExpAux, if_neg hk]
      apply ih
      obtain ⟨j, h1, h2, h3⟩ := hj
      refine ⟨j, ?_, by omega, h3⟩
      rcases Nat.eq_or_lt_of_le h1 with rfl | hlt
      · exact absurd h3 hk
      · omega

theorem decExp_int {q : Rat} (h : ratIsInt (q * 10 ^ (2 : Nat)) = true) :
    ratIsInt (q * 10 ^ decExp q) = true := by
  apply decExpAux_finds
  exact ⟨2, by omega, by omega, h⟩

theorem parseAbs_print {K ip fp : Nat} (hfp : fp < 10 ^ K) :
    parseAbs (natPrint ip ++ '.' :: padLeft K (natPrint fp)) false 0
      = some ((ip : ℚ) + (fp : ℚ) / 10 ^ K) := by
  rw [parseAbs_digits_run (natPrint ip) (natPrint_all_digits ip)]
  have hne : (natPrint ip).isEmpty = false := by
    cases hip : natPrint ip with
    | nil => exact absurd hip (natPrint_ne_nil ip)
    | cons a b => rfl
  rw [hne]
  have hfold : List.foldl (fun a c => a * 10 + charVal c) 0 (natPrint ip) = ip :=
    natOfDigits_natPrint ip
  rw [hfold]
  have hpf : parseFrac (padLeft K (natPrint fp))
      = some (fp, (padLeft K (natPrint fp)).length) := by
    rw [parseFrac_digits _ (padLeft_all_digits (natPrint_all_digits fp) K),
      natOfDigits_padLeft, natOfDigits_natPrint]
  simp only [parseAbs, hpf]
  by_cases hK : K = 0
  · subst hK
    have hfp0 : fp = 0 := by omega
    subst hfp0
    norm_num [padLeft, natPrint]
  · have hlen : (padLeft K (natPrint fp)).length = K :=
      padLeft_length (natPrint_length_le (by omega) hfp)
    rw [hlen]
    simp

theorem pyFloat_pyStr {q : Rat} (h : (q * 100).den = 1) : pyFloat (pyStr q) = some q := by
  have h2 : ratIsInt (q * 10 ^ (2 : Nat)) = true := by
    rw [ratIsInt, beq_iff_eq]
    have h100 : ((10 : ℚ) ^ (2 : Nat)) = 100 := by norm_num
    rw [h100]
    exact h
  have hK := decExp_int h2
  rw [ratIsInt, beq_iff_eq] at hK
  have hqn : (((q * 10 ^ decExp q).num : ℚ)) = q * 10 ^ decExp q :=
    (Rat.den_eq_one_iff _).mp hK
  have hpow : ((10 : ℚ) ^ decExp q) ≠ 0 := pow_ne_zero _ (by norm_num)
  have hpowN : 0 < (10 : Nat) ^ decExp q := pow_pos (by norm_num) _
  have hfp : (q * 10 ^ decExp q).num.natAbs % 10 ^ decExp q < 10 ^ decExp q :=
    Nat.mod_lt _ hpowN
  have hq : q = ((q * 10 ^ decExp q).num : ℚ) / 10 ^ decExp q := by
    rw [hqn]
    field_simp
  have hval : (((q * 10 ^ decExp q).num.natAbs / 10 ^ decExp q : Nat) : ℚ)
      + (((q * 10 ^ decExp q).num.natAbs % 10 ^ decExp q : Nat) : ℚ) / 10 ^ decExp q
      = (((q * 10 ^ decExp q).num.natAbs : Nat) : ℚ) / 10 ^ decExp q := by
    have hdm : (10 : Nat) ^ decExp q * ((q * 10 ^ decExp q).num.natAbs / 10 ^ decExp q)
        + (q * 10 ^ decExp q).num.natAbs % 10 ^ decExp q
        = (q * 10 ^ decExp q).num.natAbs := Nat.div_add_mod _ _
    have hdm2 : (q * 10 ^ decExp q).num.natAbs / 10 ^ decExp q * 10 ^ decExp q
        + (q * 10 ^ decExp q).num.natAbs % 10 ^ decExp q
        = (q * 10 ^ decExp q).num.natAbs := by
      rw [Nat.mul_comm] at hdm
      exact hdm
    field_simp
    exact_mod_cast congrArg (fun m : Nat => ((m : ℚ))) hdm2
  by_cases hneg : q < 0
  · have hqK_neg : q * 10 ^ decExp q < 0 :=
      mul_neg_of_neg_of_pos hneg (by positivity)
    have hn_neg : (q * 10 ^ decExp q).num < 0 := by
      by_contra hc
      push_neg at hc
      have h0 : (0 : ℚ) ≤ q * 10 ^ decExp q := Rat.num_nonneg.mp hc
      linarith
    have hna : (((q * 10 ^ decExp q).num.natAbs : Int)) = -(q * 10 ^ decExp q).num := by
      omega
    have hchars : pyStrChars q
        = '-' :: (natPrint ((q * 10 ^ decExp q).num.natAbs / 10 ^ decExp q)
            ++ '.' :: padLeft (decExp q)
              (natPrint ((q * 10 ^ decExp q).num.natAbs % 10 ^ decExp q))) := by
      unfold pyStrChars
      rw [if_pos hneg]
      rfl
    show pyFloat ⟨pyStrChars q⟩ = some q
    rw [hchars]
    show (parseAbs (natPrint ((q * 10 ^ decExp q).num.natAbs / 10 ^ decExp q)
        ++ '.' :: padLeft (decExp q)
          (natPrint ((q * 10 ^ decExp q).num.natAbs % 10 ^ decExp q))) false 0).map
        (fun x => -x) = some q
    rw [parseAbs_print hfp, Option.map_some']
    refine congrArg some ?_
    rw [hval]
    have hcast : (((q * 10 ^ decExp q).num.natAbs : ℚ)) = -((q * 10 ^ decExp q).num : ℚ) := by
      rw [Int.cast_natAbs]
      exact_mod_cast congrArg (fun z : Int => ((z : ℚ))) (abs_of_neg hn_neg)
    rw [hcast]
    conv_rhs => rw [hq]
    ring
  · have h0q : (0 : ℚ) ≤ q := not_lt.mp hneg
    have hn_nonneg : 0 ≤ (q * 10 ^ decExp q).num :=
      Rat.num_nonneg.mpr (mul_nonneg h0q (by positivity))
    have hna : (((q * 10 ^ decExp q).num.natAbs : Int)) = (q * 10 ^ decExp q).num := by
      omega
    have hchars : pyStrChars q
        = natPrint ((q * 10 ^ decExp q).num.natAbs / 10 ^ decExp q)
            ++ '.' :: padLeft (decExp q)
              (natPrint ((q * 10 ^ decExp q).num.natAbs % 10 ^ decExp q)) := by
      unfold pyStrChars
      rw [if_neg hneg]
      rfl
    show pyFloat ⟨pyStrChars q⟩ = some q
    rw [hchars]
    cases hip : natPrint ((q * 10 ^ decExp q).num.natAbs / 10 ^ decExp q) with
    | nil => exact absurd hip (natPrint_ne_nil _)
    | cons c cs =>
      have hcdig : c.isDigit = true := by
        have hall := natPrint_all_digits ((q * 10 ^ decExp q).num.natAbs / 10 ^ decExp q)
        rw [hip, List.all_cons, Bool.and_eq_true] at hall
        exact hall.1
      have hcm : ¬ ((c == '-') = true) := by
        rw [isDigit_ne_of hcdig (by decide)]
        exact Bool.false_ne_true
      have hcp : ¬ ((c == '+') = true) := by
        rw [isDigit_ne_of hcdig (by decide)]
        exact Bool.false_ne_true
      show pyFloat ⟨(c :: cs) ++ '.' :: padLeft (decExp q)
          (natPrint ((q * 10 ^ decExp q).num.natAbs % 10 ^ decExp q))⟩ = some q
      rw [List.cons_append]
      show (if c == '-' then _ else if c == '+' then _ else
          parseAbs (c :: (cs ++ '.' :: padLeft (decExp q)
            (natPrint ((q * 10 ^ decExp q).num.natAbs % 10 ^ decExp q)))) false 0) = some q
      rw [if_neg hcm, if_neg hcp, ← List.cons_append, ← hip, parseAbs_print hfp]
      refine congrArg some ?_
      rw [hval]
      have hcast : (((q * 10 ^ decExp q).num.natAbs : ℚ)) = ((q * 10 ^ decExp q).num : ℚ) := by
        rw [Int.cast_natAbs]
        exact_mod_cast congrArg (fun z : Int => ((z : ℚ))) (abs_of_nonneg hn_nonneg)
      rw [hcast]
      conv_rhs => rw [hq]

/-- C8: writing a collection of transactions via the row encoding and parsing
each written row back through the `MonizzeTransaction` constructor reproduces
the same transactions field-for-field; for amounts that are 2-decimal
currency values the text representation round-trips without precision
loss. -/
theorem row_roundtrip (l : List MonizzeTransaction)
    (h : ∀ t ∈ l, (t.amount * 100).den = 1) :
    l.map (fun t => mkTransaction t.row) = l.map Except.ok := by
  refine List.map_congr_left (fun t ht => ?_)
  show mkTransaction [t.date, t.voucher, pyStr t.amount, t.detail] = Except.ok t
  simp only [mkTransaction, pyFloat_pyStr (h t ht)]

/-- Closed instance of the C8 theorem. -/
theorem row_roundtrip_witness :
    (∀ t ∈ [(⟨"2024-01-05", "A", mkRat 1234 100, "x"⟩ : MonizzeTransaction)],
        (t.amount * 100).den = 1)
      ∧ [(⟨"2024-01-05", "A", mkRat 1234 100, "x"⟩ : MonizzeTransaction)].map
          (fun t => mkTransaction t.row)
        = [(⟨"2024-01-05", "A", mkRat 1234 100, "x"⟩ : MonizzeTransaction)].map Except.ok :=
  ⟨by with_unfolding_all decide,
    row_roundtrip [⟨"2024-01-05", "A", mkRat 1234 100, "x"⟩] (by with_unfolding_all decide)⟩
